import Mathlib

/-!
Shallow embedding of the db721 foreign-data-wrapper scan engine
(`src/db721_fdw/src/db721_fdw.rs`, final mmap-based reader;
`src/wrappers/src/fdw/db721_fdw/{db721_fdw,metadata,parser}.rs`, earlier
file-based variant and shared metadata/parser).

Modelling conventions:
* `i32` values are `Int` (only comparisons occur, never arithmetic, so wrap-around
  is irrelevant); `u32`/`u64` counters are `Nat`.
* `f32` values are `ℚ`: the engine only ever compares floats with `= < ≤ > ≥`
  (`Op::eval` via `PartialOrd`), and on non-NaN floats those comparisons are
  order-isomorphic to the comparisons of their exact rational values.
* Rust `String` / `&[u8]` / `PgString` cell payloads are byte lists `List ℕ`;
  Rust's `Ord` for byte slices is byte-wise lexicographic with a strict prefix
  ordered first, which is exactly the Mathlib `LinearOrder (List ℕ)`.
* `HashMap` is an association list with unique keys; `HashMap::insert` replaces
  the value stored under an existing key (`hmInsert`), `get` is `List.lookup`,
  and `values()` iteration is list order (all uses below are order-insensitive
  or documented).
* The memory map is abstracted as `FileData`: total functions giving the decoded
  `i32` / `f32` / zero-terminated-string value starting at a given byte offset.
  The byte-offset arithmetic of `read_cur_val` is kept exactly; only the
  little-endian byte decoding itself is abstracted.
* Rust panics (`unwrap`, `assert!`, failed `let ... else => panic!`) are modelled
  as explicit `panicked` outcomes where a claim depends on them, and as the
  conservative value `false` inside `skip_block`/row evaluation where the
  surrounding code makes them unreachable (documented at each site).
-/

namespace Db721

/-- Comparison operators supported by the FDW (`enum Op`). -/
inductive Op where
  | eq
  | lt
  | lte
  | gt
  | gte
deriving DecidableEq, Repr

/-- `Op::eval`: returns true if `lhs op rhs` holds, for any `PartialOrd` type;
all instantiations in the source are total orders (`i32`, non-NaN `f32`,
byte slices, `String`). -/
def Op.eval {T : Type} [LinearOrder T] (op : Op) (lhs rhs : T) : Bool :=
  match op with
  | .eq => decide (lhs = rhs)
  | .lt => decide (lhs < rhs)
  | .lte => decide (lhs ≤ rhs)
  | .gt => decide (lhs > rhs)
  | .gte => decide (lhs ≥ rhs)

/-- `Op::from_str`: parses the operator symbol of a qual; any other symbol is
unsupported (`Err(())`). -/
def Op.fromStr (s : String) : Option Op :=
  if s = "=" then some .eq
  else if s = "<" then some .lt
  else if s = "<=" then some .lte
  else if s = ">" then some .gt
  else if s = ">=" then some .gte
  else none

/-- Cells produced by the reader (`Cell::I32`, `Cell::F32`, `Cell::PgString`).
The reader never materialises the other `Cell` variants of the host library. -/
inductive Cell where
  | i32 : Int → Cell
  | f32 : ℚ → Cell
  | pgString : List ℕ → Cell
deriving DecidableEq, Repr

/-- Typed right-hand side of a compiled qual (`enum PolyVal`). -/
inductive PolyVal where
  | int : Int → PolyVal
  | float : ℚ → PolyVal
  | str : List ℕ → PolyVal
deriving DecidableEq, Repr

/-- Host-supplied qual value (`supabase_wrappers::Value`). `other` stands for
every variant `TryFrom<&Value> for PolyVal` rejects. The `Cell::F64` arm
(narrowed to `f32` with rounding) is not modelled: rounding is a float
bit-level operation and no claim concerns it. -/
inductive Value where
  | cellI32 : Int → Value
  | cellF32 : ℚ → Value
  | cellString : List ℕ → Value
  | other : Value
deriving DecidableEq, Repr

/-- `TryFrom<&Value> for PolyVal`. -/
def polyOfValue : Value → Option PolyVal
  | .cellI32 v => some (.int v)
  | .cellF32 v => some (.float v)
  | .cellString v => some (.str v)
  | .other => none

/-- Compiled predicate (`struct CustomQual`). -/
structure CustomQual where
  op : Op
  rhs : PolyVal
deriving DecidableEq, Repr

/-- `CustomQual::eval`: evaluate the predicate on a cell. The source has
separate `Cell::PgString` and `Cell::String` arms; both compare byte-wise
lexicographically and the reader only produces `PgString` cells, so one arm
suffices. A type mismatch logs a warning and returns `false`. -/
def CustomQual.eval (q : CustomQual) (lhs : Cell) : Bool :=
  match lhs, q.rhs with
  | .f32 l, .float r => q.op.eval l r
  | .i32 l, .int r => q.op.eval l r
  | .pgString l, .str r => q.op.eval l r
  | _, _ => false

/-- Host-supplied qual (`supabase_wrappers::Qual`). -/
structure Qual where
  field : String
  operator : String
  value : Value
  use_or : Bool
deriving DecidableEq, Repr

/-- Host-supplied LIMIT clause (`supabase_wrappers::Limit`), both fields `i64`. -/
structure Limit where
  count : Int
  offset : Int
deriving DecidableEq, Repr

/-- Per-block statistics (`struct BlockStats<T>` in metadata.rs). For numeric
columns `min_len`/`max_len` are serde defaults (0) and unused. -/
structure BlockStats (T : Type) where
  num : ℕ
  min : T
  max : T
  min_len : ℕ
  max_len : ℕ
deriving DecidableEq, Repr

/-- `BSMap<T> = HashMap<u32, BlockStats<T>>`, as an association list. -/
abbrev BSMap (T : Type) := List (ℕ × BlockStats T)

/-- Typed per-column statistics (`enum Stats`); the `BSS` wrapper struct around
the map is flattened away. -/
inductive Stats where
  | float : BSMap ℚ → Stats
  | int : BSMap Int → Stats
  | str : BSMap (List ℕ) → Stats
deriving DecidableEq, Repr

/-- Sum of the `num` fields of a stats map; the three arms of
`Metadata::num_rows` perform this same computation for each payload type. -/
def Stats.sumNums : Stats → ℕ
  | .float bs => (bs.map (fun p => p.2.num)).sum
  | .int bs => (bs.map (fun p => p.2.num)).sum
  | .str bs => (bs.map (fun p => p.2.num)).sum

/-- Column descriptor (`struct Column`). -/
structure Column where
  block_stats : Stats
  num_blocks : ℕ
  start_offset : ℕ
deriving DecidableEq, Repr

/-- Width in bytes of one stored value (`Column::field_size`; the method body is
not among the provided sources, but both `read_cur_val` implementations pin the
widths per type: `FIELD_SIZE` 4 for float, 4 for int, 32 for str). -/
def Column.field_size (col : Column) : ℕ :=
  match col.block_stats with
  | .float _ => 4
  | .int _ => 4
  | .str _ => 32

/-- Trailer metadata (`struct Metadata`); `Columns` is a `HashMap` modelled as
an association list, so "the first column" below corresponds to the arbitrary
column `columns.values().next()` picks in the source. -/
structure Metadata where
  table_name : String
  columns : List (String × Column)
  max_vals_per_block : ℕ
deriving DecidableEq, Repr

/-- `Metadata::num_rows`: total row count, the sum of the per-block `num`
fields of an arbitrary (here: the first) column. -/
def Metadata.num_rows (m : Metadata) : ℕ :=
  match m.columns with
  | [] => 0
  | (_, col) :: _ => col.block_stats.sumNums

/-- Modelled from the spec: `Metadata::num_rows_in_block` is called by both
`iter_scan` implementations but its definition is not among the provided
sources. §4.4 of the spec gives
`rowsInBlock = min(maxValuesPerBlock, totalRows − blockNum * maxValuesPerBlock)`
(natural subtraction truncates at zero). -/
def Metadata.num_rows_in_block (m : Metadata) (block_num : ℕ) : ℕ :=
  min m.max_vals_per_block (m.num_rows - block_num * m.max_vals_per_block)

/-- Abstraction of the memory-mapped file: the decoded value of each physical
type starting at a given byte offset. `strAt` yields the logical string, i.e.
the prefix of the 32-byte slot up to (not including) its first zero byte. -/
structure FileData where
  i32At : ℕ → Int
  f32At : ℕ → ℚ
  strAt : ℕ → List ℕ

/-- Value of column `col` at cursor `(block_num, block_row_num)`
(`Db721Reader::read_cur_val` of the final mmap reader): reads `field_size`
bytes at `start_offset + abs_row_num * field_size` and tags the cell after the
column's statistics type. -/
def readCurValAt (d : FileData) (m : Metadata) (block_num block_row_num : ℕ)
    (col : Column) : Cell :=
  let abs_row_num := m.max_vals_per_block * block_num + block_row_num
  let read_offset := col.start_offset + abs_row_num * col.field_size
  match col.block_stats with
  | .float _ => .f32 (d.f32At read_offset)
  | .int _ => .i32 (d.i32At read_offset)
  | .str _ => .pgString (d.strAt read_offset)

/-- `Db721Reader::read_cur_val` of the earlier wrappers variant: it initialises
the output cell from the statistics type and lets `read_val` dispatch on that
cell. For `Stats::Int` it initialises `Cell::F32(0.0)` (db721_fdw.rs line 270),
so the 4 bytes of an int column are decoded as an `f32` and an int column
produces a float cell. -/
def readCurValWrappers (d : FileData) (m : Metadata) (block_num block_row_num : ℕ)
    (col : Column) : Cell :=
  let field_size : ℕ :=
    match col.block_stats with
    | .float _ => 4
    | .int _ => 4
    | .str _ => 32
  let abs_row_num := m.max_vals_per_block * block_num + block_row_num
  let read_offset := col.start_offset + abs_row_num * field_size
  match col.block_stats with
  | .float _ => .f32 (d.f32At read_offset)
  | .int _ => .f32 (d.f32At read_offset)
  | .str _ => .pgString (d.strAt read_offset)

/-- Zone-map skip test of one qual against one block's numeric statistics
(the match on `q.op` repeated verbatim in the `Float` and `Int` arms of
`skip_block`; the `Str` arm repeats it too but adds length tests to `Eq`,
inlined below). -/
def Op.skipTest {T : Type} [LinearOrder T] (op : Op) (mn mx rhs : T) : Bool :=
  match op with
  | .eq => decide (mn > rhs) || decide (mx < rhs)
  | .lt => decide (mn ≥ rhs)
  | .lte => decide (mn > rhs)
  | .gt => decide (mx ≤ rhs)
  | .gte => decide (mx < rhs)

/-- `Db721Reader::skip_block` (identical in both variants), over the compiled
qual list: skip the block iff ANY qual proves it empty of matching rows.
The `columns.get(..).unwrap()` cannot panic for readers built by
`Db721Reader::new` (it asserts every qual field is a metadata column); the
unreachable `none` arm conservatively refuses to skip. Likewise the source
panics when the rhs type mismatches the column's statistics type
(`let PolyVal::... else panic!`); the mismatch arm also refuses to skip. -/
def skipBlockCore (m : Metadata) (quals : List (String × ℕ × CustomQual))
    (block_num : ℕ) : Bool :=
  quals.any fun e =>
    match List.lookup e.1 m.columns with
    | none => false
    | some col =>
      match col.block_stats with
      | .float bs =>
        match List.lookup block_num bs with
        | some stats =>
          match e.2.2.rhs with
          | .float rhs => e.2.2.op.skipTest stats.min stats.max rhs
          | _ => false
        | none => false
      | .int bs =>
        match List.lookup block_num bs with
        | some stats =>
          match e.2.2.rhs with
          | .int rhs => e.2.2.op.skipTest stats.min stats.max rhs
          | _ => false
        | none => false
      | .str bs =>
        match List.lookup block_num bs with
        | some stats =>
          match e.2.2.rhs with
          | .str rhs =>
            match e.2.2.op with
            | .eq =>
              decide (stats.max_len < rhs.length) || decide (stats.min_len > rhs.length)
                || decide (stats.min > rhs) || decide (stats.max < rhs)
            | _ => e.2.2.op.skipTest stats.min stats.max rhs
          | _ => false
        | none => false

/-- Scan state of the final mmap reader (`struct Db721Reader`); the `mmap`
field is the `FileData` abstraction. `quals` is the compiled
`HashMap<String, (usize, CustomQual)>`, `non_pred_cols` the projected columns
not appearing in any qual, each with its projection index. -/
structure Db721Reader where
  data : FileData
  metadata : Metadata
  num_blocks : ℕ
  cols : List String
  limit : Limit
  quals : List (String × ℕ × CustomQual)
  non_pred_cols : List (ℕ × String)
  row_cnt : Int
  block_num : ℕ
  block_row_num : ℕ

/-- `HashMap::insert`: replace the value under an existing key, otherwise add
the entry. -/
def hmInsert {α : Type} (k : String) (v : α) : List (String × α) → List (String × α)
  | [] => [(k, v)]
  | (k', v') :: rest =>
    if k = k' then (k, v) :: rest else (k', v') :: hmInsert k v rest

/-- Outcome of compiling the qual list inside `Db721Reader::new`. -/
inductive CompileResult where
  | ok : List (String × ℕ × CustomQual) → CompileResult
  | reportedError : CompileResult
  | panicked : CompileResult
deriving DecidableEq

/-- The qual-compilation loop of `Db721Reader::new`: reject `use_or`, unknown
operators and unconvertible rhs values (each with `report_error` + `Err(())`);
look up the qual field's position in the projected column list with an
unchecked `unwrap()` — absence panics (db721_fdw.rs line 184). -/
def compileQuals (cols : List String) :
    List Qual → List (String × ℕ × CustomQual) → CompileResult
  | [], acc => .ok acc
  | q :: rest, acc =>
    if q.use_or then .reportedError
    else
      match Op.fromStr q.operator with
      | none => .reportedError
      | some op =>
        match polyOfValue q.value with
        | none => .reportedError
        | some rhs =>
          match cols.findIdx? (fun f => f = q.field) with
          | none => .panicked
          | some i => compileQuals cols rest (hmInsert q.field (i, ⟨op, rhs⟩) acc)

/-- The initial/inter-block skip loop `while bn < nb && skip_block(bn) { bn += 1 }`,
driven by the structurally decreasing count of remaining blocks. -/
def nextBlockGo (m : Metadata) (quals : List (String × ℕ × CustomQual)) :
    ℕ → ℕ → ℕ
  | bn, 0 => bn
  | bn, remaining + 1 =>
    if skipBlockCore m quals bn then nextBlockGo m quals (bn + 1) remaining else bn

/-- First block index `≥ bn` that is not skipped, or `num_blocks` when every
remaining block is skipped. -/
def nextBlock (m : Metadata) (quals : List (String × ℕ × CustomQual))
    (num_blocks bn : ℕ) : ℕ :=
  nextBlockGo m quals bn (num_blocks - bn)

/-- The LIMIT clamp of `Db721Reader::new`
(`limit.clone().map(..).unwrap_or_else(..)`): when `offset + count` exceeds the
total row count the stored count becomes `num_rows − offset`; an absent LIMIT
becomes `{count: num_rows, offset: 0}`. -/
def clampLimit (limit : Option Limit) (num_rows : Int) : Limit :=
  match limit with
  | some l =>
    if l.offset + l.count > num_rows then ⟨num_rows - l.offset, l.offset⟩
    else ⟨l.count, l.offset⟩
  | none => ⟨num_rows, 0⟩

/-- Outcome of `Db721Reader::new`. `Err(())` is split by its cause:
`reportedError` paths call `report_error` first; `emptyScan` is the
"filtered out all the rows" path, which only emits a debug log; `panicked`
models `assert!`/`unwrap` failures, which abort instead of returning. -/
inductive NewResult where
  | ok : Db721Reader → NewResult
  | reportedError : NewResult
  | emptyScan : NewResult
  | panicked : NewResult

/-- `Db721Reader::new` of the final mmap reader. `parsed` is the outcome of
`parse_file` (the mmap parser itself is not among the provided sources):
`none` means the parse failed, which is reported and yields `Err(())`.
Then, in source order: the two `assert!`s that every projected column and
every qual field exists in the metadata; LIMIT clamping against
`num_rows as i64`; qual compilation; `non_pred_cols`; `num_blocks` from an
arbitrary (first) column via `values().next().unwrap()`; and the initial
block-skip loop, signalling `emptyScan` when it exhausts all blocks. -/
def Db721Reader.new (parsed : Option (FileData × Metadata)) (cols : List String)
    (quals : List Qual) (limit : Option Limit) : NewResult :=
  match parsed with
  | none => .reportedError
  | some (data, metadata) =>
    if ¬ (cols.all fun c => (List.lookup c metadata.columns).isSome) then .panicked
    else if ¬ (quals.all fun q => (List.lookup q.field metadata.columns).isSome) then
      .panicked
    else
      let num_rows : Int := (metadata.num_rows : Int)
      let limit : Limit := clampLimit limit num_rows
      match compileQuals cols quals [] with
      | .reportedError => .reportedError
      | .panicked => .panicked
      | .ok qs =>
        let non_pred_cols : List (ℕ × String) :=
          (cols.enum).filter fun p => (List.lookup p.2 qs).isNone
        match metadata.columns with
        | [] => .panicked
        | (_, col0) :: _ =>
          let num_blocks := col0.num_blocks
          let bn := nextBlock metadata qs num_blocks 0
          if bn ≥ num_blocks then .emptyScan
          else
            .ok
              { data, metadata, num_blocks, cols, limit, quals := qs, non_pred_cols,
                row_cnt := 0, block_num := bn, block_row_num := 0 }

/-- The output row buffer: `Row.cells`, a vector of optional cells. The parallel
`Row.cols` vector is initialised to defaults and unread ("not really needed by
postgres"), so it is not modelled. -/
abbrev Row := List (Option Cell)

/-- `row.cells.resize(n, Some(Cell::I32(0)))`: truncate or pad with the
placeholder cell. -/
def resizeCells (cells : Row) (n : ℕ) : Row :=
  cells.take n ++ List.replicate (n - cells.length) (some (.i32 0))

/-- Predicate part of one row probe in `iter_scan`: every compiled qual accepts
the current row's value of its column. The source interleaves writing each
predicated cell into the row with evaluating it, breaking at the first failure;
`List.all` short-circuits identically, and on the emitted row the writes are
replayed by `writeQuals`. The `columns.get(..).unwrap()` is unreachable for
readers built by `new` (asserted there); the `none` arm fails the row. -/
def allPass (r : Db721Reader) (b j : ℕ) : Bool :=
  r.quals.all fun e =>
    match List.lookup e.1 r.metadata.columns with
    | none => false
    | some col => e.2.2.eval (readCurValAt r.data r.metadata b j col)

/-- Writes of the predicated columns into the row at emission: each compiled
qual's value is stored at its projection index. -/
def writeQuals (r : Db721Reader) (b j : ℕ) (cells : Row) : Row :=
  r.quals.foldl
    (fun cs e =>
      match List.lookup e.1 r.metadata.columns with
      | none => cs
      | some col => cs.set e.2.1 (some (readCurValAt r.data r.metadata b j col)))
    cells

/-- Writes of the non-predicated projected columns into the row at emission
(only performed when all quals passed). -/
def writeNonPred (r : Db721Reader) (b j : ℕ) (cells : Row) : Row :=
  r.non_pred_cols.foldl
    (fun cs e =>
      match List.lookup e.2 r.metadata.columns with
      | none => cs
      | some col => cs.set e.1 (some (readCurValAt r.data r.metadata b j col)))
    cells

/-- The inner row loop `while block_row_num < num_rows`, searching the first row
index `≥ j` of block `b` that passes all quals; `remaining` counts the rows
still to probe (`num_rows − j`). -/
def firstMatchGo (r : Db721Reader) (b : ℕ) : ℕ → ℕ → Option ℕ
  | _, 0 => none
  | j, remaining + 1 =>
    if allPass r b j then some j else firstMatchGo r b (j + 1) remaining

/-- First row index in `[j, numRows)` of block `b` passing all quals. -/
def firstMatch (r : Db721Reader) (b numRows j : ℕ) : Option ℕ :=
  firstMatchGo r b j (numRows - j)

/-- The outer block loop of `iter_scan`: scan the current block from the current
row cursor; on exhaustion reset the row cursor, advance past every skippable
block, and continue. `steps` bounds the remaining loop iterations
(`num_blocks − bn`); each iteration moves to a strictly larger block. Returns
the cursor of the next emitted row. -/
def iterBlocksGo (r : Db721Reader) : ℕ → ℕ → ℕ → Option (ℕ × ℕ)
  | 0, _, _ => none
  | steps + 1, bn, brn =>
    if bn < r.num_blocks then
      match firstMatch r bn (r.metadata.num_rows_in_block bn) brn with
      | some j => some (bn, j)
      | none =>
        iterBlocksGo r steps (nextBlock r.metadata r.quals r.num_blocks (bn + 1)) 0
    else none

/-- Cursor of the next emitted row at or after `(bn, brn)`, if any. -/
def iterBlocks (r : Db721Reader) (bn brn : ℕ) : Option (ℕ × ℕ) :=
  iterBlocksGo r (r.num_blocks - bn) bn brn

/-- `Db721Fdw::iter_scan` body for an open reader: return exhausted once
`row_cnt` reaches the LIMIT count; otherwise emit the next passing row,
resizing the caller's row buffer to the projection arity and writing the
predicated, then the non-predicated, columns at their projection indices.
On emission `block_row_num` advances past the emitted row and `row_cnt`
increments. (Probe rows that fail the quals also touch the buffer in the
source; they only write projection indices of predicated columns, which the
emission rewrites, so the emitted buffer is unchanged by them.) -/
def iterScan (r : Db721Reader) (row : Row) : Option (Db721Reader × Row) :=
  if r.row_cnt ≥ r.limit.count then none
  else
    match iterBlocks r r.block_num r.block_row_num with
    | none => none
    | some (b, j) =>
      let row1 := resizeCells row r.cols.length
      let row2 := writeQuals r b j row1
      let row3 := writeNonPred r b j row2
      some
        ({ r with row_cnt := r.row_cnt + 1, block_num := b, block_row_num := j + 1 },
          row3)

/-- The FDW wrapper object (`struct Db721Fdw`). -/
structure Db721Fdw where
  reader : Option Db721Reader

/-- `Db721Fdw::begin_scan`: stores `Db721Reader::new(..).ok()`, so every
`Err(())` (reported error or empty scan) leaves the reader empty and the scan
yields zero rows; a panic aborts and produces no FDW state (`none`). -/
def Db721Fdw.begin_scan (parsed : Option (FileData × Metadata)) (cols : List String)
    (quals : List Qual) (limit : Option Limit) : Option Db721Fdw :=
  match Db721Reader.new parsed cols quals limit with
  | .ok r => some ⟨some r⟩
  | .reportedError => some ⟨none⟩
  | .emptyScan => some ⟨none⟩
  | .panicked => none

/-- `Db721Fdw::iter_scan`: with no open reader the scan is exhausted
immediately; otherwise defer to the reader. -/
def Db721Fdw.iter_scan (fdw : Db721Fdw) (row : Row) : Option (Db721Fdw × Row) :=
  match fdw.reader with
  | none => none
  | some r => (iterScan r row).map fun p => (⟨some p.1⟩, p.2)

/-- Driving harness: the host pulls rows until `iter_scan` returns exhausted.
Records each emitted row together with its cursor (the emitting reader's
`(block_num, block_row_num − 1)`). `fuel` bounds the number of pulls. -/
def runScan (r : Db721Reader) (row : Row) : ℕ → List ((ℕ × ℕ) × Row)
  | 0 => []
  | fuel + 1 =>
    match iterScan r row with
    | none => []
    | some (r', row') =>
      ((r'.block_num, r'.block_row_num - 1), row') :: runScan r' row' fuel

/-- Cursors of the emitted rows of a run. -/
def runCursors (r : Db721Reader) (row : Row) (fuel : ℕ) : List (ℕ × ℕ) :=
  (runScan r row fuel).map Prod.fst

/-- Row indices in `[j, j + remaining)` of block `b` that pass all quals, in
ascending order (specification device for the run characterisation). -/
def blockMatchesGo (r : Db721Reader) (b : ℕ) : ℕ → ℕ → List ℕ
  | _, 0 => []
  | j, remaining + 1 =>
    if allPass r b j then j :: blockMatchesGo r b (j + 1) remaining
    else blockMatchesGo r b (j + 1) remaining

/-- Row indices in `[j, numRows)` of block `b` that pass all quals. -/
def blockMatches (r : Db721Reader) (b numRows j : ℕ) : List ℕ :=
  blockMatchesGo r b j (numRows - j)

/-- All cursors the scan will emit from position `(bn, brn)` onwards, ignoring
LIMIT: the passing rows of the current block from `brn`, then, per non-skipped
block in ascending order, its passing rows. `steps` bounds the recursion depth
exactly as in `iterBlocksGo`. -/
def matchPositionsGo (r : Db721Reader) : ℕ → ℕ → ℕ → List (ℕ × ℕ)
  | 0, _, _ => []
  | steps + 1, bn, brn =>
    if bn < r.num_blocks then
      ((blockMatches r bn (r.metadata.num_rows_in_block bn) brn).map fun j => (bn, j))
        ++ matchPositionsGo r steps (nextBlock r.metadata r.quals r.num_blocks (bn + 1)) 0
    else []

/-- All cursors the scan will emit from position `(bn, brn)` onwards, ignoring
LIMIT. -/
def matchPositions (r : Db721Reader) (bn brn : ℕ) : List (ℕ × ℕ) :=
  matchPositionsGo r (r.num_blocks - bn) bn brn

/-- Strict file order on cursors: ascending block, then ascending row. -/
def lexLt (a b : ℕ × ℕ) : Prop :=
  a.1 < b.1 ∨ (a.1 = b.1 ∧ a.2 < b.2)

/-- Total number of rows the scan can visit in blocks `[bn, bn + rem)`. -/
def sumRowsFrom (r : Db721Reader) : ℕ → ℕ → ℕ
  | _, 0 => 0
  | bn, rem + 1 => r.metadata.num_rows_in_block bn + sumRowsFrom r (bn + 1) rem

/-- Little-endian unsigned 32-bit integer from four bytes
(`u32::from_le_bytes`). -/
def leU32 (b0 b1 b2 b3 : ℕ) : ℕ :=
  b0 + 256 * (b1 + 256 * (b2 + 256 * b3))

/-- Outcome of `parse_file` (wrappers parser.rs). `ioError` is an
`io::Result::Err` propagated with `?`; the caller (`Db721Reader::new`)
reports it and yields a zero-row scan. `panicked` models an `unwrap()`
failure, which aborts the process instead of returning. -/
inductive ParseResult where
  | ok : Metadata → ParseResult
  | ioError : ParseResult
  | panicked : ParseResult

/-- `parse_file` (wrappers parser.rs), with the serde_json trailer decoding
abstracted as `dec`. Steps, in source order:
1. `seek(SeekFrom::End(-4))` — fails (`ioError`) when the file is smaller
   than 4 bytes (seeking before byte 0 is an I/O error);
2. read the little-endian `u32` trailer length from the last 4 bytes;
3. `seek(Start(pos - metadata_len))` + `read_exact` — when the declared
   length exceeds `pos = file size − 4`, the release-build `u64` subtraction
   wraps, the seek lands far past end-of-file and `read_exact` fails with
   `UnexpectedEof` (`ioError`); a debug build would already panic on the
   subtraction overflow;
4. `Metadata::from_slice(&buf).unwrap()` — a JSON decode/shape failure is
   NOT propagated: the `unwrap()` panics (parser.rs line 25). -/
def parseFile (dec : List ℕ → Option Metadata) (file : List ℕ) : ParseResult :=
  if file.length < 4 then .ioError
  else
    let pos := file.length - 4
    let metadata_len :=
      leU32 (file.getD pos 0) (file.getD (pos + 1) 0) (file.getD (pos + 2) 0)
        (file.getD (pos + 3) 0)
    if pos < metadata_len then .ioError
    else
      let buf := (file.drop (pos - metadata_len)).take metadata_len
      match dec buf with
      | some md => .ok md
      | none => .panicked

/-! Concrete scan instances used by witnesses and counterexamples: a file with
a single int column `age`, one block of 10 rows, every stored value 0, and
honest block statistics `{num: 10, min: 0, max: 0}`. -/

/-- Concrete file data: every int/float cell reads 0, every string cell
reads the empty string. -/
def wData : FileData := ⟨fun _ => 0, fun _ => 0, fun _ => []⟩

/-- Concrete int column with one block of 10 rows, honest stats. -/
def wColAge : Column :=
  { block_stats := .int [(0, ⟨10, 0, 0, 0, 0⟩)], num_blocks := 1, start_offset := 0 }

/-- Concrete metadata: single column `age`, 10 values per block. -/
def wMeta : Metadata :=
  { table_name := "t", columns := [("age", wColAge)], max_vals_per_block := 10 }

/-- Two conjunctive quals on the same field: `age >= 3 AND age < 5`
(the shape of spec scenario S3). -/
def wQualsC1 : List Qual :=
  [⟨"age", ">=", .cellI32 3, false⟩, ⟨"age", "<", .cellI32 5, false⟩]

/-- The reader `Db721Reader::new` builds for `wQualsC1` over `wMeta`: the
field-keyed qual map retained only the second qual (`HashMap::insert`
replaced the first). -/
def wReaderC1 : Db721Reader :=
  { data := wData, metadata := wMeta, num_blocks := 1, cols := ["age"],
    limit := ⟨10, 0⟩, quals := [("age", (0, ⟨.lt, .int 5⟩))], non_pred_cols := [],
    row_cnt := 0, block_num := 0, block_row_num := 0 }

/-- State of `wReaderC1` after its first emission (row `(0, 0)`). -/
def wReaderC1' : Db721Reader :=
  { wReaderC1 with row_cnt := 1, block_num := 0, block_row_num := 1 }

/-- A reader whose LIMIT count is 0 (scan of `wMeta` with `LIMIT 0`). -/
def wReaderL0 : Db721Reader :=
  { data := wData, metadata := wMeta, num_blocks := 1, cols := ["age"],
    limit := ⟨0, 0⟩, quals := [], non_pred_cols := [(0, "age")],
    row_cnt := 0, block_num := 0, block_row_num := 0 }

/-- Single equality qual satisfied by every row of the concrete file. -/
def wQualsC2 : List Qual := [⟨"age", "=", .cellI32 0, false⟩]

/-- The reader `Db721Reader::new` builds for `wQualsC2` over `wMeta`. -/
def wReaderC2 : Db721Reader :=
  { data := wData, metadata := wMeta, num_blocks := 1, cols := ["age"],
    limit := ⟨10, 0⟩, quals := [("age", (0, ⟨.eq, .int 0⟩))], non_pred_cols := [],
    row_cnt := 0, block_num := 0, block_row_num := 0 }

/-- The reader `Db721Reader::new` builds for a scan of `wMeta` with no quals
and no LIMIT. -/
def wReaderC3 : Db721Reader :=
  { data := wData, metadata := wMeta, num_blocks := 1, cols := ["age"],
    limit := ⟨10, 0⟩, quals := [], non_pred_cols := [(0, "age")],
    row_cnt := 0, block_num := 0, block_row_num := 0 }

/-- The reader `Db721Reader::new` builds for `LIMIT 7 OFFSET 5` over the 10-row
file: the count is clamped to `10 − 5 = 5`. -/
def wReaderC5 : Db721Reader :=
  { data := wData, metadata := wMeta, num_blocks := 1, cols := ["age"],
    limit := ⟨5, 5⟩, quals := [], non_pred_cols := [(0, "age")],
    row_cnt := 0, block_num := 0, block_row_num := 0 }

/-- The reader `Db721Reader::new` builds for `LIMIT 3 OFFSET 2` over the 10-row
file (no clamping; the offset is stored but never applied). -/
def wReaderC9 : Db721Reader :=
  { data := wData, metadata := wMeta, num_blocks := 1, cols := ["age"],
    limit := ⟨3, 2⟩, quals := [], non_pred_cols := [(0, "age")],
    row_cnt := 0, block_num := 0, block_row_num := 0 }

/-- Declared trailer length of a file: the little-endian `u32` stored in its
last four bytes. -/
def trailerLen (file : List ℕ) : ℕ :=
  leU32 (file.getD (file.length - 4) 0) (file.getD (file.length - 4 + 1) 0)
    (file.getD (file.length - 4 + 2) 0) (file.getD (file.length - 4 + 3) 0)

/-- The declared trailer payload: the `trailerLen` bytes immediately preceding
the length word. -/
def trailerBuf (file : List ℕ) : List ℕ :=
  (file.drop (file.length - 4 - trailerLen file)).take (trailerLen file)

/-- Honesty of one column's per-block statistics: every value the scan can read
from block `b` (row indices below `num_rows_in_block b`) lies within the
recorded `min`/`max`, and for string columns its length lies within
`min_len`/`max_len`. The read offsets are exactly those of `read_cur_val`. -/
def HonestCol (d : FileData) (m : Metadata) (col : Column) : Prop :=
  (∀ bs, col.block_stats = .int bs →
    ∀ b stats, List.lookup b bs = some stats →
      ∀ j, j < m.num_rows_in_block b →
        stats.min ≤ d.i32At (col.start_offset + (m.max_vals_per_block * b + j) * 4)
          ∧ d.i32At (col.start_offset + (m.max_vals_per_block * b + j) * 4) ≤ stats.max)
  ∧ (∀ bs, col.block_stats = .float bs →
    ∀ b stats, List.lookup b bs = some stats →
      ∀ j, j < m.num_rows_in_block b →
        stats.min ≤ d.f32At (col.start_offset + (m.max_vals_per_block * b + j) * 4)
          ∧ d.f32At (col.start_offset + (m.max_vals_per_block * b + j) * 4) ≤ stats.max)
  ∧ (∀ bs, col.block_stats = .str bs →
    ∀ b stats, List.lookup b bs = some stats →
      ∀ j, j < m.num_rows_in_block b →
        stats.min ≤ d.strAt (col.start_offset + (m.max_vals_per_block * b + j) * 32)
          ∧ d.strAt (col.start_offset + (m.max_vals_per_block * b + j) * 32) ≤ stats.max
          ∧ stats.min_len ≤ (d.strAt (col.start_offset + (m.max_vals_per_block * b + j) * 32)).length
          ∧ (d.strAt (col.start_offset + (m.max_vals_per_block * b + j) * 32)).length ≤ stats.max_len)

/-- Honesty of all per-block statistics of a file. -/
def Honest (d : FileData) (m : Metadata) : Prop :=
  ∀ c col, List.lookup c m.columns = some col → HonestCol d m col

/-- A raw qual compiles to the given predicate. -/
def QualCompilesTo (q : Qual) (cq : CustomQual) : Prop :=
  Op.fromStr q.operator = some cq.op ∧ polyOfValue q.value = some cq.rhs

/-- The row at cursor `(b, j)` satisfies a raw qual under the row-predicate
semantics of §4.3(b): however the qual compiles, its compiled predicate accepts
the value of the qual's column at that cursor. -/
def RawQualHolds (d : FileData) (m : Metadata) (q : Qual) (b j : ℕ) : Prop :=
  ∀ cq col, QualCompilesTo q cq → List.lookup q.field m.columns = some col →
    cq.eval (readCurValAt d m b j col) = true

/-! ### Loop-level lemmas: the inner row loop -/

theorem firstMatchGo_eq_head? (r : Db721Reader) (b : ℕ) :
    ∀ rem j, firstMatchGo r b j rem = (blockMatchesGo r b j rem).head? := by
  intro rem
  induction rem with
  | zero => intro j; rfl
  | succ n ih =>
    intro j
    by_cases h : allPass r b j = true
    · simp [firstMatchGo, blockMatchesGo, h]
    · simp [firstMatchGo, blockMatchesGo, h, ih]

theorem mem_blockMatchesGo (r : Db721Reader) (b : ℕ) :
    ∀ rem j x, x ∈ blockMatchesGo r b j rem ↔
      j ≤ x ∧ x < j + rem ∧ allPass r b x = true := by
  intro rem
  induction rem with
  | zero => intro j x; simp [blockMatchesGo]; omega
  | succ n ih =>
    intro j x
    by_cases h : allPass r b j = true
    · simp only [blockMatchesGo, h, if_pos, List.mem_cons, ih]
      constructor
      · rintro (rfl | ⟨h1, h2, h3⟩)
        · exact ⟨le_refl _, by omega, h⟩
        · exact ⟨by omega, by omega, h3⟩
      · rintro ⟨h1, h2, h3⟩
        rcases Nat.eq_or_lt_of_le h1 with rfl | hlt
        · exact Or.inl rfl
        · exact Or.inr ⟨hlt, by omega, h3⟩
    · simp only [blockMatchesGo, h, if_neg, Bool.not_eq_true, ih]
      constructor
      · rintro ⟨h1, h2, h3⟩; exact ⟨by omega, by omega, h3⟩
      · rintro ⟨h1, h2, h3⟩
        refine ⟨?_, by omega, h3⟩
        rcases Nat.eq_or_lt_of_le h1 with rfl | hlt
        · exact absurd h3 (by simp [h])
        · omega

theorem mem_blockMatches (r : Db721Reader) (b n j x : ℕ) :
    x ∈ blockMatches r b n j ↔ j ≤ x ∧ x < n ∧ allPass r b x = true := by
  rw [blockMatches, mem_blockMatchesGo]
  constructor <;> rintro ⟨h1, h2, h3⟩ <;> exact ⟨by omega, by omega, h3⟩

theorem blockMatchesGo_pairwise (r : Db721Reader) (b : ℕ) :
    ∀ rem j, List.Pairwise (· < ·) (blockMatchesGo r b j rem) := by
  intro rem
  induction rem with
  | zero => intro j; simp [blockMatchesGo]
  | succ n ih =>
    intro j
    by_cases h : allPass r b j = true
    · simp only [blockMatchesGo, h, if_pos, List.pairwise_cons]
      refine ⟨?_, ih (j + 1)⟩
      intro x hx
      exact lt_of_lt_of_le (by omega) ((mem_blockMatchesGo r b n (j + 1) x).mp hx).1
    · simpa [blockMatchesGo, h] using ih (j + 1)

theorem blockMatches_decomp (r : Db721Reader) (b n : ℕ) :
    ∀ rem j j', rem = n - j →
      (blockMatchesGo r b j rem).head? = some j' →
      blockMatchesGo r b j rem = j' :: blockMatches r b n (j' + 1) := by
  intro rem
  induction rem with
  | zero => intro j j' _ hh; simp [blockMatchesGo] at hh
  | succ k ih =>
    intro j j' hrem hh
    by_cases h : allPass r b j = true
    · simp only [blockMatchesGo, h, if_pos, List.head?_cons, Option.some_inj] at hh ⊢
      have hk : k = n - (j + 1) := by omega
      subst hh
      rw [blockMatches, ← hk]
    · simp only [blockMatchesGo, h, if_neg, Bool.not_eq_true] at hh ⊢
      exact ih (j + 1) j' (by omega) hh

theorem blockMatchesGo_length_le (r : Db721Reader) (b : ℕ) :
    ∀ rem j, (blockMatchesGo r b j rem).length ≤ rem := by
  intro rem
  induction rem with
  | zero => intro j; simp [blockMatchesGo]
  | succ k ih =>
    intro j
    by_cases h : allPass r b j = true
    · simpa [blockMatchesGo, h] using ih (j + 1)
    · simp only [blockMatchesGo, h, if_neg, Bool.not_eq_true]
      exact le_trans (ih (j + 1)) (by omega)

theorem blockMatchesGo_all_pass (r : Db721Reader) (b : ℕ) (hq : r.quals = []) :
    ∀ rem j, (blockMatchesGo r b j rem).length = rem := by
  have hall : ∀ j, allPass r b j = true := by
    intro j; simp [allPass, hq]
  intro rem
  induction rem with
  | zero => intro j; rfl
  | succ k ih => intro j; simp [blockMatchesGo, hall j, ih (j + 1)]

/-! ### Loop-level lemmas: the block-skip loop -/

theorem nextBlockGo_ge (m : Metadata) (qs : List (String × ℕ × CustomQual)) :
    ∀ rem bn, bn ≤ nextBlockGo m qs bn rem := by
  intro rem
  induction rem with
  | zero => intro bn; simp [nextBlockGo]
  | succ k ih =>
    intro bn
    by_cases h : skipBlockCore m qs bn = true
    · simp only [nextBlockGo, h, if_pos]
      exact le_trans (by omega) (ih (bn + 1))
    · simp [nextBlockGo, h]

theorem nextBlockGo_le (m : Metadata) (qs : List (String × ℕ × CustomQual)) :
    ∀ rem bn, nextBlockGo m qs bn rem ≤ bn + rem := by
  intro rem
  induction rem with
  | zero => intro bn; simp [nextBlockGo]
  | succ k ih =>
    intro bn
    by_cases h : skipBlockCore m qs bn = true
    · simp only [nextBlockGo, h, if_pos]
      exact le_trans (ih (bn + 1)) (by omega)
    · simp [nextBlockGo, h]

theorem nextBlock_ge (m : Metadata) (qs : List (String × ℕ × CustomQual))
    (nb bn : ℕ) : bn ≤ nextBlock m qs nb bn :=
  nextBlockGo_ge m qs _ bn

theorem nextBlock_le (m : Metadata) (qs : List (String × ℕ × CustomQual))
    {nb bn : ℕ} (h : bn ≤ nb) : nextBlock m qs nb bn ≤ nb := by
  have := nextBlockGo_le m qs (nb - bn) bn
  rw [nextBlock]; omega

theorem nextBlock_min (m : Metadata) (qs : List (String × ℕ × CustomQual)) (nb : ℕ) :
    ∀ rem bn b, bn ≤ b → rem = nb - bn → nb ≤ b ∨ skipBlockCore m qs b = false →
      nextBlockGo m qs bn rem ≤ b := by
  intro rem
  induction rem with
  | zero => intro bn b h _ _; simpa [nextBlockGo] using h
  | succ k ih =>
    intro bn b hbnb hrem hb
    by_cases h : skipBlockCore m qs bn = true
    · simp only [nextBlockGo, h, if_pos]
      have hne : bn ≠ b := by
        rintro rfl
        rcases hb with hb | hb
        · omega
        · rw [h] at hb; cases hb
      exact ih (bn + 1) b (by omega) (by omega) hb
    · simp only [nextBlockGo, h, if_neg]; exact hbnb

theorem nextBlock_min' (m : Metadata) (qs : List (String × ℕ × CustomQual))
    {nb bn b : ℕ} (h1 : bn ≤ b) (h2 : nb ≤ b ∨ skipBlockCore m qs b = false) :
    nextBlock m qs nb bn ≤ b :=
  nextBlock_min m qs nb (nb - bn) bn b h1 rfl h2

theorem nextBlock_all_skipped (m : Metadata) (qs : List (String × ℕ × CustomQual))
    (nb : ℕ) :
    ∀ rem bn, bn + rem = nb → (∀ b, bn ≤ b → b < nb → skipBlockCore m qs b = true) →
      nextBlockGo m qs bn rem = nb := by
  intro rem
  induction rem with
  | zero => intro bn h _; simpa [nextBlockGo] using h
  | succ k ih =>
    intro bn hrem hall
    have hs : skipBlockCore m qs bn = true := hall bn (le_refl _) (by omega)
    simp only [nextBlockGo, hs, if_pos]
    exact ih (bn + 1) (by omega) (fun b h1 h2 => hall b (by omega) h2)

theorem nextBlock_no_quals (m : Metadata) (nb bn : ℕ) :
    nextBlock m ([] : List (String × ℕ × CustomQual)) nb bn = bn := by
  have hskip : skipBlockCore m [] bn = false := by simp [skipBlockCore]
  rcases Nat.eq_zero_or_pos (nb - bn) with h | h
  · simp [nextBlock, h, nextBlockGo]
  · obtain ⟨k, hk⟩ : ∃ k, nb - bn = k + 1 := ⟨nb - bn - 1, by omega⟩
    simp [nextBlock, hk, nextBlockGo, hskip]

/-! ### The emission-trace specification `matchPositions` -/

theorem matchPositionsGo_oob (r : Db721Reader) :
    ∀ steps bn brn, r.num_blocks ≤ bn → matchPositionsGo r steps bn brn = [] := by
  intro steps bn brn h
  cases steps with
  | zero => rfl
  | succ k => simp [matchPositionsGo, Nat.not_lt_of_le h]

theorem matchPositionsGo_fuel (r : Db721Reader) :
    ∀ gas steps₁ steps₂ bn brn, r.num_blocks - bn ≤ gas →
      r.num_blocks - bn ≤ steps₁ → r.num_blocks - bn ≤ steps₂ →
      matchPositionsGo r steps₁ bn brn = matchPositionsGo r steps₂ bn brn := by
  intro gas
  induction gas with
  | zero =>
    intro s₁ s₂ bn brn hg _ _
    rw [matchPositionsGo_oob r s₁ bn brn (by omega),
      matchPositionsGo_oob r s₂ bn brn (by omega)]
  | succ g ih =>
    intro s₁ s₂ bn brn hg h₁ h₂
    by_cases hbn : bn < r.num_blocks
    · obtain ⟨t₁, rfl⟩ : ∃ t, s₁ = t + 1 := ⟨s₁ - 1, by omega⟩
      obtain ⟨t₂, rfl⟩ : ∃ t, s₂ = t + 1 := ⟨s₂ - 1, by omega⟩
      simp only [matchPositionsGo, hbn, if_pos]
      congr 1
      have hnb := nextBlock_ge r.metadata r.quals r.num_blocks (bn + 1)
      exact ih t₁ t₂ _ 0 (by omega) (by omega) (by omega)
    · rw [matchPositionsGo_oob r _ bn brn (by omega),
        matchPositionsGo_oob r _ bn brn (by omega)]

theorem matchPositions_unfold (r : Db721Reader) (bn brn : ℕ) :
    matchPositions r bn brn =
      if bn < r.num_blocks then
        ((blockMatches r bn (r.metadata.num_rows_in_block bn) brn).map fun j => (bn, j))
          ++ matchPositions r (nextBlock r.metadata r.quals r.num_blocks (bn + 1)) 0
      else [] := by
  by_cases hbn : bn < r.num_blocks
  · obtain ⟨k, hk⟩ : ∃ k, r.num_blocks - bn = k + 1 := ⟨r.num_blocks - bn - 1, by omega⟩
    rw [matchPositions, hk]
    simp only [matchPositionsGo, hbn, if_pos]
    congr 1
    have h1 := nextBlock_ge r.metadata r.quals r.num_blocks (bn + 1)
    exact matchPositionsGo_fuel r
      (r.num_blocks - nextBlock r.metadata r.quals r.num_blocks (bn + 1)) k _ _ 0
      (le_refl _) (by omega) (by omega)
  · rw [matchPositions, matchPositionsGo_oob r _ bn brn (by omega), if_neg hbn]

theorem iterBlocksGo_eq_head? (r : Db721Reader) :
    ∀ steps bn brn,
      iterBlocksGo r steps bn brn = (matchPositionsGo r steps bn brn).head? := by
  intro steps
  induction steps with
  | zero => intro bn brn; rfl
  | succ k ih =>
    intro bn brn
    by_cases hbn : bn < r.num_blocks
    · simp only [iterBlocksGo, matchPositionsGo, hbn, if_pos]
      rw [firstMatch, firstMatchGo_eq_head?]
      cases hbm : blockMatchesGo r bn brn (r.metadata.num_rows_in_block bn - brn) with
      | nil => simpa [blockMatches, hbm] using ih _ 0
      | cons x xs => simp [blockMatches, hbm]
    · simp [iterBlocksGo, matchPositionsGo, hbn]

theorem iterBlocks_eq_head? (r : Db721Reader) (bn brn : ℕ) :
    iterBlocks r bn brn = (matchPositions r bn brn).head? :=
  iterBlocksGo_eq_head? r _ bn brn

theorem matchPositions_fst_ge (r : Db721Reader) :
    ∀ gas bn brn p, r.num_blocks - bn ≤ gas → p ∈ matchPositions r bn brn →
      bn ≤ p.1 := by
  intro gas
  induction gas with
  | zero =>
    intro bn brn p hg hp
    rw [matchPositions, matchPositionsGo_oob r _ bn brn (by omega)] at hp
    cases hp
  | succ g ih =>
    intro bn brn p hg hp
    rw [matchPositions_unfold] at hp
    by_cases hbn : bn < r.num_blocks
    · rw [if_pos hbn, List.mem_append] at hp
      rcases hp with hp | hp
      · obtain ⟨j, _, rfl⟩ := List.mem_map.mp hp
        exact le_refl _
      · have hnb := nextBlock_ge r.metadata r.quals r.num_blocks (bn + 1)
        have := ih (nextBlock r.metadata r.quals r.num_blocks (bn + 1)) 0 p (by omega) hp
        omega
    · rw [if_neg hbn] at hp; cases hp

theorem matchPositions_cons (r : Db721Reader) :
    ∀ gas bn brn b j, r.num_blocks - bn ≤ gas →
      (matchPositions r bn brn).head? = some (b, j) →
      matchPositions r bn brn = (b, j) :: matchPositions r b (j + 1) := by
  intro gas
  induction gas with
  | zero =>
    intro bn brn b j hg hh
    rw [matchPositions, matchPositionsGo_oob r _ bn brn (by omega)] at hh
    cases hh
  | succ g ih =>
    intro bn brn b j hg hh
    by_cases hbn : bn < r.num_blocks
    · rw [matchPositions_unfold, if_pos hbn] at hh ⊢
      cases hbm : blockMatches r bn (r.metadata.num_rows_in_block bn) brn with
      | nil =>
        rw [hbm] at hh
        simp only [List.map_nil, List.nil_append] at hh ⊢
        have hnb := nextBlock_ge r.metadata r.quals r.num_blocks (bn + 1)
        exact ih _ 0 b j (by omega) hh
      | cons x xs =>
        rw [hbm] at hh
        simp only [List.map_cons, List.cons_append, List.head?_cons,
          Option.some_inj] at hh
        have hx : (blockMatches r bn (r.metadata.num_rows_in_block bn) brn).head?
            = some x := by rw [hbm]; rfl
        have hdec := blockMatches_decomp r bn (r.metadata.num_rows_in_block bn)
          (r.metadata.num_rows_in_block bn - brn) brn x rfl hx
        rw [show blockMatchesGo r bn brn (r.metadata.num_rows_in_block bn - brn)
            = blockMatches r bn (r.metadata.num_rows_in_block bn) brn from rfl, hbm]
          at hdec
        have hb : b = bn := (congrArg Prod.fst hh).symm
        have hj : j = x := (congrArg Prod.snd hh).symm
        subst hb; subst hj
        have hxs : xs = blockMatches r b (r.metadata.num_rows_in_block b) (j + 1) :=
          (List.cons.inj hdec).2
        rw [hxs, matchPositions_unfold r b (j + 1), if_pos hbn, List.map_cons,
          List.cons_append]
    · rw [matchPositions_unfold, if_neg hbn] at hh
      cases hh

theorem matchPositions_pairwise (r : Db721Reader) :
    ∀ gas bn brn, r.num_blocks - bn ≤ gas →
      List.Pairwise lexLt (matchPositions r bn brn) := by
  intro gas
  induction gas with
  | zero =>
    intro bn brn hg
    rw [matchPositions, matchPositionsGo_oob r _ bn brn (by omega)]
    exact List.Pairwise.nil
  | succ g ih =>
    intro bn brn hg
    rw [matchPositions_unfold]
    by_cases hbn : bn < r.num_blocks
    · rw [if_pos hbn, List.pairwise_append]
      refine ⟨?_, ?_, ?_⟩
      · rw [List.pairwise_map]
        exact (blockMatchesGo_pairwise r bn _ brn).imp fun h => Or.inr ⟨rfl, h⟩
      · have hnb := nextBlock_ge r.metadata r.quals r.num_blocks (bn + 1)
        exact ih _ 0 (by omega)
      · intro a ha p hp
        obtain ⟨j, _, rfl⟩ := List.mem_map.mp ha
        have hnb := nextBlock_ge r.metadata r.quals r.num_blocks (bn + 1)
        have hge := matchPositions_fst_ge r (r.num_blocks -
          nextBlock r.metadata r.quals r.num_blocks (bn + 1)) _ 0 p (le_refl _) hp
        exact Or.inl (by omega)
    · rw [if_neg hbn]; exact List.Pairwise.nil

/-! ### The scan state update of `iterScan` only moves the cursor, so the
remaining-trace specification is unchanged. -/

theorem allPass_update (r : Db721Reader) (rc : Int) (c2 c3 b j : ℕ) :
    allPass { r with row_cnt := rc, block_num := c2, block_row_num := c3 } b j
      = allPass r b j := rfl

theorem blockMatchesGo_update (r : Db721Reader) (rc : Int) (c2 c3 : ℕ) (b : ℕ) :
    ∀ rem j,
      blockMatchesGo { r with row_cnt := rc, block_num := c2, block_row_num := c3 } b j rem
        = blockMatchesGo r b j rem := by
  intro rem
  induction rem with
  | zero => intro j; rfl
  | succ k ih => intro j; simp only [blockMatchesGo, allPass_update, ih]

theorem blockMatches_update (r : Db721Reader) (rc : Int) (c2 c3 : ℕ) (b n j : ℕ) :
    blockMatches { r with row_cnt := rc, block_num := c2, block_row_num := c3 } b n j
      = blockMatches r b n j :=
  blockMatchesGo_update r rc c2 c3 b _ j

theorem matchPositionsGo_update (r : Db721Reader) (rc : Int) (c2 c3 : ℕ) :
    ∀ steps bn brn,
      matchPositionsGo { r with row_cnt := rc, block_num := c2, block_row_num := c3 }
          steps bn brn
        = matchPositionsGo r steps bn brn := by
  intro steps
  induction steps with
  | zero => intro bn brn; rfl
  | succ k ih =>
    intro bn brn
    simp only [matchPositionsGo, blockMatches_update, ih]

theorem matchPositions_update (r : Db721Reader) (rc : Int) (c2 c3 : ℕ) (bn brn : ℕ) :
    matchPositions { r with row_cnt := rc, block_num := c2, block_row_num := c3 } bn brn
      = matchPositions r bn brn :=
  matchPositionsGo_update r rc c2 c3 _ bn brn

/-! ### The run-trace theorem: successive `iterScan` calls emit exactly the
LIMIT-bounded prefix of `matchPositions`. -/

theorem runCursors_spec (fuel : ℕ) : ∀ (r : Db721Reader) (row : Row),
    runCursors r row fuel =
      (matchPositions r r.block_num r.block_row_num).take
        (min fuel (r.limit.count - r.row_cnt).toNat) := by
  induction fuel with
  | zero => intro r row; simp [runCursors, runScan]
  | succ f ih =>
    intro r row
    by_cases hcnt : r.row_cnt ≥ r.limit.count
    · have h0 : (r.limit.count - r.row_cnt).toNat = 0 := by omega
      simp [runCursors, runScan, iterScan, hcnt, h0]
    · have hbud : 1 ≤ (r.limit.count - r.row_cnt).toNat := by omega
      cases hib : iterBlocks r r.block_num r.block_row_num with
      | none =>
        have hmp : matchPositions r r.block_num r.block_row_num = [] := by
          cases hl : matchPositions r r.block_num r.block_row_num with
          | nil => rfl
          | cons x xs =>
            rw [iterBlocks_eq_head? r r.block_num r.block_row_num, hl] at hib
            cases hib
        simp [runCursors, runScan, iterScan, hcnt, hib, hmp]
      | some p =>
        obtain ⟨b, j⟩ := p
        have hcons := matchPositions_cons r (r.num_blocks - r.block_num) r.block_num
          r.block_row_num b j (le_refl _)
          (by rw [← iterBlocks_eq_head? r r.block_num r.block_row_num, hib])
        have hstep : runCursors r row (f + 1)
            = (b, j) :: runCursors
                { r with row_cnt := r.row_cnt + 1, block_num := b, block_row_num := j + 1 }
                (writeNonPred r b j (writeQuals r b j (resizeCells row r.cols.length))) f := by
          simp only [runCursors, runScan, iterScan, hib, if_neg hcnt]
          rfl
        rw [hstep, ih, matchPositions_update]
        have harith : min (f + 1) (r.limit.count - r.row_cnt).toNat
            = min f ((r.limit.count - (r.row_cnt + 1)).toNat) + 1 := by omega
        rw [hcons, harith, List.take_succ_cons]

/-! ### Counting: the trace is never longer than the total row count, and with
no quals it is exactly the total row count. -/

theorem sumRowsFrom_eq (r : Db721Reader) :
    ∀ rem bn, sumRowsFrom r bn rem
      = min (r.metadata.num_rows - bn * r.metadata.max_vals_per_block)
          (rem * r.metadata.max_vals_per_block) := by
  intro rem
  induction rem with
  | zero => intro bn; simp [sumRowsFrom]
  | succ k ih =>
    intro bn
    simp only [sumRowsFrom, ih (bn + 1), Metadata.num_rows_in_block]
    have h1 : (bn + 1) * r.metadata.max_vals_per_block
        = bn * r.metadata.max_vals_per_block + r.metadata.max_vals_per_block :=
      Nat.succ_mul _ _
    have h2 : (k + 1) * r.metadata.max_vals_per_block
        = k * r.metadata.max_vals_per_block + r.metadata.max_vals_per_block :=
      Nat.succ_mul _ _
    omega

theorem sumRowsFrom_anti (r : Db721Reader) {nb bn bp : ℕ} (h : bn ≤ bp) :
    sumRowsFrom r bp (nb - bp) ≤ sumRowsFrom r bn (nb - bn) := by
  rw [sumRowsFrom_eq, sumRowsFrom_eq]
  have h1 : bn * r.metadata.max_vals_per_block ≤ bp * r.metadata.max_vals_per_block :=
    Nat.mul_le_mul_right _ h
  have h2 : (nb - bp) * r.metadata.max_vals_per_block
      ≤ (nb - bn) * r.metadata.max_vals_per_block :=
    Nat.mul_le_mul_right _ (by omega)
  omega

theorem matchPositions_length_le (r : Db721Reader) :
    ∀ gas bn brn, r.num_blocks - bn ≤ gas →
      (matchPositions r bn brn).length ≤ sumRowsFrom r bn (r.num_blocks - bn) := by
  intro gas
  induction gas with
  | zero =>
    intro bn brn hg
    rw [matchPositions, matchPositionsGo_oob r _ bn brn (by omega)]
    exact Nat.zero_le _
  | succ g ih =>
    intro bn brn hg
    rw [matchPositions_unfold]
    by_cases hbn : bn < r.num_blocks
    · rw [if_pos hbn]
      have hnb := nextBlock_ge r.metadata r.quals r.num_blocks (bn + 1)
      have hbm := blockMatchesGo_length_le r bn
        (r.metadata.num_rows_in_block bn - brn) brn
      have hih := ih (nextBlock r.metadata r.quals r.num_blocks (bn + 1)) 0 (by omega)
      have hanti := @sumRowsFrom_anti r r.num_blocks (bn + 1)
        (nextBlock r.metadata r.quals r.num_blocks (bn + 1)) hnb
      have hsum : sumRowsFrom r bn (r.num_blocks - bn)
          = r.metadata.num_rows_in_block bn
            + sumRowsFrom r (bn + 1) (r.num_blocks - (bn + 1)) := by
        obtain ⟨k, hk⟩ : ∃ k, r.num_blocks - bn = k + 1 := ⟨r.num_blocks - bn - 1, by omega⟩
        rw [hk, sumRowsFrom]
        have : k = r.num_blocks - (bn + 1) := by omega
        rw [this]
      rw [List.length_append, List.length_map]
      rw [blockMatches] at *
      omega
    · rw [if_neg hbn]; exact Nat.zero_le _

theorem matchPositions_length_le_num_rows (r : Db721Reader) (bn brn : ℕ) :
    (matchPositions r bn brn).length ≤ r.metadata.num_rows := by
  have h1 := matchPositions_length_le r (r.num_blocks - bn) bn brn (le_refl _)
  have h2 := @sumRowsFrom_anti r r.num_blocks 0 bn (Nat.zero_le _)
  have h3 := sumRowsFrom_eq r (r.num_blocks - 0) 0
  omega

theorem matchPositions_length_no_quals (r : Db721Reader) (hq : r.quals = []) :
    ∀ gas bn, r.num_blocks - bn ≤ gas →
      (matchPositions r bn 0).length = sumRowsFrom r bn (r.num_blocks - bn) := by
  intro gas
  induction gas with
  | zero =>
    intro bn hg
    rw [matchPositions, matchPositionsGo_oob r _ bn 0 (by omega)]
    have h0 : r.num_blocks - bn = 0 := by omega
    rw [h0, sumRowsFrom]
    rfl
  | succ g ih =>
    intro bn hg
    rw [matchPositions_unfold]
    by_cases hbn : bn < r.num_blocks
    · rw [if_pos hbn, List.length_append, List.length_map]
      rw [hq, nextBlock_no_quals]
      have hbm : (blockMatches r bn (r.metadata.num_rows_in_block bn) 0).length
          = r.metadata.num_rows_in_block bn := by
        rw [blockMatches, blockMatchesGo_all_pass r bn hq]
        omega
      have hih := ih (bn + 1) (by omega)
      have hsum : sumRowsFrom r bn (r.num_blocks - bn)
          = r.metadata.num_rows_in_block bn
            + sumRowsFrom r (bn + 1) (r.num_blocks - (bn + 1)) := by
        obtain ⟨k, hk⟩ : ∃ k, r.num_blocks - bn = k + 1 := ⟨r.num_blocks - bn - 1, by omega⟩
        rw [hk, sumRowsFrom]
        have : k = r.num_blocks - (bn + 1) := by omega
        rw [this]
      omega
    · rw [if_neg hbn]
      have h0 : r.num_blocks - bn = 0 := by omega
      rw [h0, sumRowsFrom]
      rfl

/-! ### Inversion of `Db721Reader::new` on the success path -/

theorem new_ok_inv {d : FileData} {m : Metadata} {cols : List String}
    {quals : List Qual} {lim : Option Limit} {r : Db721Reader}
    (h : Db721Reader.new (some (d, m)) cols quals lim = .ok r) :
    ∃ qs c0 col0 rest,
      compileQuals cols quals [] = .ok qs ∧
      m.columns = (c0, col0) :: rest ∧
      cols.all (fun c => (List.lookup c m.columns).isSome) = true ∧
      quals.all (fun q => (List.lookup q.field m.columns).isSome) = true ∧
      nextBlock m qs col0.num_blocks 0 < col0.num_blocks ∧
      r = { data := d, metadata := m, num_blocks := col0.num_blocks, cols := cols,
            limit := clampLimit lim (m.num_rows : Int),
            quals := qs,
            non_pred_cols := (cols.enum).filter fun p => (List.lookup p.2 qs).isNone,
            row_cnt := 0, block_num := nextBlock m qs col0.num_blocks 0,
            block_row_num := 0 } := by
  rw [Db721Reader.new] at h
  by_cases hA : (cols.all fun c => (List.lookup c m.columns).isSome) = true
  · rw [if_neg (not_not_intro hA)] at h
    by_cases hB : (quals.all fun q => (List.lookup q.field m.columns).isSome) = true
    · rw [if_neg (not_not_intro hB)] at h
      cases hc : compileQuals cols quals [] with
      | reportedError => rw [hc] at h; cases h
      | panicked => rw [hc] at h; cases h
      | ok qs =>
        rw [hc] at h
        cases hm : m.columns with
        | nil => rw [hm] at h; dsimp only at h; cases h
        | cons hd tl =>
          obtain ⟨c0, col0⟩ := hd
          rw [hm] at h
          dsimp only at h
          by_cases hbn : nextBlock m qs col0.num_blocks 0 ≥ col0.num_blocks
          · rw [if_pos hbn] at h; cases h
          · rw [if_neg hbn] at h
            refine ⟨qs, c0, col0, tl, rfl, rfl, hm ▸ hA, hm ▸ hB, by omega, ?_⟩
            cases h
            rfl
    · rw [if_pos hB] at h; cases h
  · rw [if_pos hA] at h; cases h

/-! ### The qual-compilation loop -/

theorem hmInsert_mem {α : Type} {k : String} {v : α} :
    ∀ {l : List (String × α)} {e}, e ∈ hmInsert k v l → e = (k, v) ∨ e ∈ l := by
  intro l
  induction l with
  | nil => intro e he; simpa [hmInsert] using he
  | cons hd tl ih =>
    intro e he
    rw [hmInsert] at he
    by_cases hk : k = hd.1
    · obtain ⟨k', v'⟩ := hd
      rw [if_pos hk] at he
      rcases List.mem_cons.mp he with rfl | he
      · exact Or.inl rfl
      · exact Or.inr (List.mem_cons_of_mem _ he)
    · obtain ⟨k', v'⟩ := hd
      rw [if_neg hk] at he
      rcases List.mem_cons.mp he with rfl | he
      · exact Or.inr (List.mem_cons_self _ _)
      · rcases ih he with h | h
        · exact Or.inl h
        · exact Or.inr (List.mem_cons_of_mem _ h)

theorem findIdx?_some_exists {α : Type} {p : α → Bool} :
    ∀ {l : List α} {s i : ℕ}, List.findIdx? p l s = some i → ∃ x ∈ l, p x = true := by
  intro l
  induction l with
  | nil => intro s i h; cases h
  | cons hd tl ih =>
    intro s i h
    rw [List.findIdx?_cons] at h
    by_cases hp : p hd = true
    · exact ⟨hd, List.mem_cons_self _ _, hp⟩
    · rw [if_neg hp] at h
      obtain ⟨x, hx, hpx⟩ := ih h
      exact ⟨x, List.mem_cons_of_mem _ hx, hpx⟩

theorem compileQuals_mem {cols : List String} :
    ∀ {ql : List Qual} {acc qs}, compileQuals cols ql acc = .ok qs →
      ∀ e ∈ qs, e ∈ acc ∨ ∃ q ∈ ql, q.field = e.1 ∧ QualCompilesTo q e.2.2 := by
  intro ql
  induction ql with
  | nil =>
    intro acc qs h e he
    rw [compileQuals] at h
    cases h
    exact Or.inl he
  | cons q rest ih =>
    intro acc qs h e he
    rw [compileQuals] at h
    by_cases ho : q.use_or = true
    · rw [if_pos ho] at h; cases h
    · rw [if_neg ho] at h
      cases hop : Op.fromStr q.operator with
      | none => rw [hop] at h; cases h
      | some op =>
        rw [hop] at h
        cases hpv : polyOfValue q.value with
        | none => rw [hpv] at h; cases h
        | some rhs =>
          rw [hpv] at h
          cases hidx : List.findIdx? (fun f => f = q.field) cols with
          | none => rw [hidx] at h; cases h
          | some i =>
            rw [hidx] at h
            rcases ih h e he with hacc | ⟨q', hq', hf, hcomp⟩
            · rcases hmInsert_mem hacc with rfl | hacc
              · exact Or.inr ⟨q, List.mem_cons_self _ _, rfl, hop, hpv⟩
              · exact Or.inl hacc
            · exact Or.inr ⟨q', List.mem_cons_of_mem _ hq', hf, hcomp⟩

theorem compileQuals_ok_fields {cols : List String} :
    ∀ {ql : List Qual} {acc qs}, compileQuals cols ql acc = .ok qs →
      ∀ q ∈ ql, ∃ i, List.findIdx? (fun f => f = q.field) cols = some i := by
  intro ql
  induction ql with
  | nil => intro acc qs _ q hq; cases hq
  | cons q rest ih =>
    intro acc qs h q' hq'
    rw [compileQuals] at h
    by_cases ho : q.use_or = true
    · rw [if_pos ho] at h; cases h
    · rw [if_neg ho] at h
      cases hop : Op.fromStr q.operator with
      | none => rw [hop] at h; cases h
      | some op =>
        rw [hop] at h
        cases hpv : polyOfValue q.value with
        | none => rw [hpv] at h; cases h
        | some rhs =>
          rw [hpv] at h
          cases hidx : List.findIdx? (fun f => f = q.field) cols with
          | none => rw [hidx] at h; cases h
          | some i =>
            rw [hidx] at h
            rcases List.mem_cons.mp hq' with rfl | hq'
            · exact ⟨i, hidx⟩
            · exact ih h q' hq'

theorem compileQuals_panics {cols : List String} :
    ∀ {ql : List Qual} (acc : List (String × ℕ × CustomQual)),
      (∀ q ∈ ql, q.use_or = false ∧ (Op.fromStr q.operator).isSome
        ∧ (polyOfValue q.value).isSome) →
      (∃ q ∈ ql, q.field ∉ cols) →
      compileQuals cols ql acc = .panicked := by
  intro ql
  induction ql with
  | nil => intro acc _ hex; simp at hex
  | cons q rest ih =>
    intro acc hall hex
    obtain ⟨ho, hop, hpv⟩ := hall q (List.mem_cons_self _ _)
    obtain ⟨op, hop'⟩ := Option.isSome_iff_exists.mp hop
    obtain ⟨rhs, hpv'⟩ := Option.isSome_iff_exists.mp hpv
    rw [compileQuals, if_neg (by rw [ho]; exact Bool.false_ne_true), hop', hpv']
    cases hidx : List.findIdx? (fun f => f = q.field) cols with
    | none => rfl
    | some i =>
      have hqmem : q.field ∈ cols := by
        obtain ⟨x, hx, hpx⟩ := findIdx?_some_exists hidx
        simp only [decide_eq_true_eq] at hpx
        exact hpx ▸ hx
      obtain ⟨q', hq', hnot⟩ := hex
      rcases List.mem_cons.mp hq' with rfl | hq'
      · exact absurd hqmem hnot
      · exact ih _ (fun a ha => hall a (List.mem_cons_of_mem _ ha)) ⟨q', hq', hnot⟩

/-! ### Soundness of the zone-map skip test -/

theorem Op.skipTest_false {T : Type} [LinearOrder T] {op : Op} {mn mx v rv : T}
    (h1 : mn ≤ v) (h2 : v ≤ mx) (he : op.eval v rv = true) :
    op.skipTest mn mx rv = false := by
  cases op with
  | eq =>
    simp only [Op.eval, decide_eq_true_eq] at he
    subst he
    simp only [Op.skipTest, Bool.or_eq_false_iff, decide_eq_false_iff_not, not_lt]
    exact ⟨h1, h2⟩
  | lt =>
    simp only [Op.eval, decide_eq_true_eq] at he
    simp only [Op.skipTest, decide_eq_false_iff_not, not_le]
    exact lt_of_le_of_lt h1 he
  | lte =>
    simp only [Op.eval, decide_eq_true_eq] at he
    simp only [Op.skipTest, decide_eq_false_iff_not, not_lt]
    exact le_trans h1 he
  | gt =>
    simp only [Op.eval, decide_eq_true_eq] at he
    simp only [Op.skipTest, decide_eq_false_iff_not, not_le]
    exact lt_of_lt_of_le he h2
  | gte =>
    simp only [Op.eval, decide_eq_true_eq] at he
    simp only [Op.skipTest, decide_eq_false_iff_not, not_lt]
    exact le_trans he h2

theorem skip_block_sound (r : Db721Reader) (hH : Honest r.data r.metadata)
    {b j : ℕ} (hj : j < r.metadata.num_rows_in_block b)
    (hpass : allPass r b j = true) :
    skipBlockCore r.metadata r.quals b = false := by
  rw [skipBlockCore, List.any_eq_false]
  intro e he
  have hent := List.all_eq_true.mp hpass e he
  rw [Bool.not_eq_true]
  cases hcol : List.lookup e.1 r.metadata.columns with
  | none => rfl
  | some col =>
    rw [hcol] at hent
    have hHC := hH e.1 col hcol
    obtain ⟨cs, cnb, cso⟩ := col
    cases cs with
    | int bs =>
      simp only [readCurValAt, Column.field_size] at hent
      simp only [CustomQual.eval] at hent
      dsimp only
      cases hbs : List.lookup b bs with
      | none => rfl
      | some stats =>
        obtain ⟨hb1, hb2⟩ := hHC.1 bs rfl b stats hbs j hj
        cases hr : e.2.2.rhs with
        | int rv =>
          rw [hr] at hent
          exact Op.skipTest_false hb1 hb2 hent
        | float rv => rw [hr] at hent
        | str rv => rw [hr] at hent
    | float bs =>
      simp only [readCurValAt, Column.field_size] at hent
      simp only [CustomQual.eval] at hent
      dsimp only
      cases hbs : List.lookup b bs with
      | none => rfl
      | some stats =>
        obtain ⟨hb1, hb2⟩ := hHC.2.1 bs rfl b stats hbs j hj
        cases hr : e.2.2.rhs with
        | float rv =>
          rw [hr] at hent
          exact Op.skipTest_false hb1 hb2 hent
        | int rv => rw [hr] at hent
        | str rv => rw [hr] at hent
    | str bs =>
      simp only [readCurValAt, Column.field_size] at hent
      simp only [CustomQual.eval] at hent
      dsimp only
      cases hbs : List.lookup b bs with
      | none => rfl
      | some stats =>
        obtain ⟨hb1, hb2, hl1, hl2⟩ := hHC.2.2 bs rfl b stats hbs j hj
        dsimp only at hl1 hl2
        cases hr : e.2.2.rhs with
        | str rv =>
          rw [hr] at hent
          cases hop : e.2.2.op with
          | eq =>
            rw [hop] at hent
            simp only [Op.eval, decide_eq_true_eq] at hent
            subst hent
            dsimp only
            simp only [Bool.or_eq_false_iff, decide_eq_false_iff_not, not_lt]
            exact ⟨⟨⟨by omega, by omega⟩, hb1⟩, hb2⟩
          | lt => rw [hop] at hent; exact Op.skipTest_false hb1 hb2 hent
          | lte => rw [hop] at hent; exact Op.skipTest_false hb1 hb2 hent
          | gt => rw [hop] at hent; exact Op.skipTest_false hb1 hb2 hent
          | gte => rw [hop] at hent; exact Op.skipTest_false hb1 hb2 hent
        | int rv => rw [hr] at hent
        | float rv => rw [hr] at hent

/-! ### Completeness: every matching row of a visitable block is in the trace -/

theorem mem_matchPositions (r : Db721Reader) :
    ∀ gas bn b j, b - bn ≤ gas → bn ≤ b → b < r.num_blocks →
      j < r.metadata.num_rows_in_block b → allPass r b j = true →
      (b = bn ∨ skipBlockCore r.metadata r.quals b = false) →
      (b, j) ∈ matchPositions r bn 0 := by
  intro gas
  induction gas with
  | zero =>
    intro bn b j hg hle hb hj hp _
    have hbeq : b = bn := by omega
    subst hbeq
    rw [matchPositions_unfold, if_pos hb, List.mem_append]
    exact Or.inl (List.mem_map.mpr ⟨j,
      (mem_blockMatches r b _ 0 j).mpr ⟨Nat.zero_le _, hj, hp⟩, rfl⟩)
  | succ g ih =>
    intro bn b j hg hle hb hj hp hd
    by_cases hbeq : b = bn
    · subst hbeq
      rw [matchPositions_unfold, if_pos hb, List.mem_append]
      exact Or.inl (List.mem_map.mpr ⟨j,
        (mem_blockMatches r b _ 0 j).mpr ⟨Nat.zero_le _, hj, hp⟩, rfl⟩)
    · have hskip : skipBlockCore r.metadata r.quals b = false := by
        rcases hd with hd | hd
        · exact absurd hd hbeq
        · exact hd
      have hbnlt : bn < r.num_blocks := by omega
      rw [matchPositions_unfold, if_pos hbnlt, List.mem_append]
      refine Or.inr (ih _ b j ?_ ?_ hb hj hp (Or.inr hskip))
      · have := nextBlock_ge r.metadata r.quals r.num_blocks (bn + 1)
        omega
      · exact nextBlock_min' r.metadata r.quals (by omega) (Or.inr hskip)

/-- Every compiled qual of a successfully begun scan is the compilation of one
of the supplied quals, so a row satisfying every supplied qual passes the
compiled filter. -/
theorem raw_all_pass (r : Db721Reader) {d : FileData} {m : Metadata}
    {cols : List String} {rawQuals : List Qual} {qs : List (String × ℕ × CustomQual)}
    (hd : r.data = d) (hm : r.metadata = m) (hq : r.quals = qs)
    (hc : compileQuals cols rawQuals [] = .ok qs)
    (hassert : (rawQuals.all fun q => (List.lookup q.field m.columns).isSome) = true)
    {b j : ℕ} (hraw : ∀ q ∈ rawQuals, RawQualHolds d m q b j) :
    allPass r b j = true := by
  rw [allPass, List.all_eq_true]
  intro e he
  rw [hq] at he
  rcases compileQuals_mem hc e he with hacc | ⟨q, hqmem, hf, hcomp⟩
  · cases hacc
  · have hsome := List.all_eq_true.mp hassert q hqmem
    obtain ⟨col, hcol⟩ := Option.isSome_iff_exists.mp hsome
    have heval := hraw q hqmem e.2.2 col hcomp hcol
    rw [hm, ← hf, hcol, hd]
    exact heval

/-! ### Claim theorems -/

/-- C6 — Order law: within one scan, the cursor pairs `(blockNum, blockRowNum)`
of the rows emitted by successive `iterScan` calls are strictly increasing in
lexicographic order (ascending block, then ascending row): rows are emitted in
strict file order. -/
theorem c6_order_law (r : Db721Reader) (row : Row) (fuel : ℕ) :
    List.Pairwise lexLt (runCursors r row fuel) := by
  rw [runCursors_spec]
  exact List.Pairwise.sublist (List.take_sublist _ _)
    (matchPositions_pairwise r (r.num_blocks - r.block_num) r.block_num
      r.block_row_num (le_refl _))

/-- C5 — LIMIT clamping: a scan begun with `LIMIT {count, offset}` stores
`count = totalRows − offset` when `offset + count > totalRows` and `count`
unchanged otherwise; with no LIMIT it stores `{count = totalRows, offset = 0}`;
`iterScan` returns exhausted without emitting whenever the number of rows
already emitted reaches the stored count, so `LIMIT 0` emits no rows at all. -/
theorem c5_limit_clamping :
    (∀ (d : FileData) (m : Metadata) (cols : List String) (rawQuals : List Qual)
        (c o : Int) (r : Db721Reader),
        Db721Reader.new (some (d, m)) cols rawQuals (some ⟨c, o⟩) = .ok r →
        r.limit = if o + c > (m.num_rows : Int)
          then ⟨(m.num_rows : Int) - o, o⟩ else ⟨c, o⟩)
    ∧ (∀ (d : FileData) (m : Metadata) (cols : List String) (rawQuals : List Qual)
        (r : Db721Reader),
        Db721Reader.new (some (d, m)) cols rawQuals none = .ok r →
        r.limit = ⟨(m.num_rows : Int), 0⟩)
    ∧ (∀ (r : Db721Reader) (row : Row), r.limit.count ≤ r.row_cnt →
        iterScan r row = none)
    ∧ (∀ (r : Db721Reader) (row : Row) (fuel : ℕ), r.limit.count ≤ r.row_cnt →
        runScan r row fuel = []) := by
  have hiter : ∀ (r : Db721Reader) (row : Row), r.limit.count ≤ r.row_cnt →
      iterScan r row = none := by
    intro r row h
    rw [iterScan, if_pos (show r.row_cnt ≥ r.limit.count from h)]
  refine ⟨?_, ?_, hiter, ?_⟩
  · intro d m cols rawQuals c o r hnew
    obtain ⟨qs, c0, col0, rest, hc, hm, hA, hB, hbn, hr⟩ := new_ok_inv hnew
    subst hr
    rfl
  · intro d m cols rawQuals r hnew
    obtain ⟨qs, c0, col0, rest, hc, hm, hA, hB, hbn, hr⟩ := new_ok_inv hnew
    subst hr
    rfl
  · intro r row fuel h
    cases fuel with
    | zero => rfl
    | succ f => rw [runScan, hiter r row h]

/-- C9 — OFFSET is not applied: for a scan begun with `LIMIT {count, offset}`,
the engine stores the (possibly clamped) count and the offset, but the emitted
rows are exactly the first `count` matching rows of the whole scan in file
order — the first `offset` matching rows are not discarded. -/
theorem c9_offset_not_applied (d : FileData) (m : Metadata) (cols : List String)
    (rawQuals : List Qual) (c o : Int) (r : Db721Reader) (row : Row) (fuel : ℕ)
    (hnew : Db721Reader.new (some (d, m)) cols rawQuals (some ⟨c, o⟩) = .ok r) :
    r.limit.offset = o
    ∧ runCursors r row fuel
        = (matchPositions r r.block_num 0).take (min fuel r.limit.count.toNat) := by
  obtain ⟨qs, c0, col0, rest, hc, hm, hA, hB, hbn, hr⟩ := new_ok_inv hnew
  have hlim : r.limit = clampLimit (some ⟨c, o⟩) ((m.num_rows : ℕ) : Int) := by
    rw [hr]
  have hrc : r.row_cnt = 0 := by rw [hr]
  have hbrn : r.block_row_num = 0 := by rw [hr]
  constructor
  · rw [hlim]
    simp only [clampLimit]
    split <;> rfl
  · rw [runCursors_spec, hrc, hbrn]
    have h0 : (r.limit.count - (0 : Int)).toNat = r.limit.count.toNat := by omega
    rw [h0]

/-- C3 — Total-count law: the computed total row count is the sum of the `num`
fields of a column's per-block statistics (the first column the code draws from
the column map), and a scan with no quals and no LIMIT emits exactly that many
rows before `iterScan` returns exhausted. The file is assumed well-formed:
its rows fit in its blocks (`totalRows ≤ numBlocks * maxValuesPerBlock`). -/
theorem c3_total_count (d : FileData) (m : Metadata) (cols : List String)
    (r : Db721Reader) (row : Row) (fuel : ℕ)
    (hnew : Db721Reader.new (some (d, m)) cols [] none = .ok r)
    (hwf : m.num_rows ≤ r.num_blocks * m.max_vals_per_block)
    (hfuel : m.num_rows ≤ fuel) :
    (∀ c0 col0 rest, m.columns = (c0, col0) :: rest
        → m.num_rows = col0.block_stats.sumNums)
    ∧ (runScan r row fuel).length = m.num_rows := by
  refine ⟨fun c0 col0 rest hcols => by rw [Metadata.num_rows, hcols], ?_⟩
  obtain ⟨qs, c0, col0, rest, hc, hm, hA, hB, hbn, hr⟩ := new_ok_inv hnew
  rw [compileQuals] at hc
  have hqs : qs = [] := by cases hc; rfl
  subst hqs
  have hquals : r.quals = [] := by rw [hr]
  have hmeta : r.metadata = m := by rw [hr]
  have hrc : r.row_cnt = 0 := by rw [hr]
  have hbrn : r.block_row_num = 0 := by rw [hr]
  have hlim : r.limit = clampLimit none ((m.num_rows : ℕ) : Int) := by rw [hr]
  have hbn0 : r.block_num = 0 := by
    rw [hr]
    exact nextBlock_no_quals m _ 0
  have hspec := congrArg List.length (runCursors_spec fuel r row)
  rw [runCursors, List.length_map, List.length_take] at hspec
  rw [hspec, hbn0, hbrn, hrc, hlim]
  have hbud : ((clampLimit none ((m.num_rows : ℕ) : Int)).count - (0 : Int)).toNat
      = m.num_rows := by
    simp only [clampLimit]
    omega
  have hmp := matchPositions_length_no_quals r hquals (r.num_blocks - 0) 0 (le_refl _)
  rw [Nat.sub_zero] at hmp
  have hsum := sumRowsFrom_eq r r.num_blocks 0
  rw [hmeta] at hsum
  rw [hmp, hsum, hbud]
  have h0 : 0 * m.max_vals_per_block = 0 := Nat.zero_mul _
  omega

/-- C2 — Predicate completeness: assuming honest per-block statistics,
`skipBlock` is true only for blocks containing no row satisfying every supplied
qual, and a scan without LIMIT omits no row satisfying every supplied qual from
its emitted stream (its cursor appears in the run's trace, given enough host
pulls). -/
theorem c2_predicate_completeness (d : FileData) (m : Metadata) (cols : List String)
    (rawQuals : List Qual) (r : Db721Reader) (row : Row) (fuel : ℕ)
    (hnew : Db721Reader.new (some (d, m)) cols rawQuals none = .ok r)
    (hhonest : Honest d m)
    (hfuel : m.num_rows ≤ fuel) :
    (∀ b j, j < m.num_rows_in_block b →
        (∀ q ∈ rawQuals, RawQualHolds d m q b j) →
        skipBlockCore m r.quals b = false)
    ∧ (∀ b j, b < r.num_blocks → j < m.num_rows_in_block b →
        (∀ q ∈ rawQuals, RawQualHolds d m q b j) →
        (b, j) ∈ runCursors r row fuel) := by
  obtain ⟨qs, c0, col0, rest, hc, hm, hA, hB, hbn, hr⟩ := new_ok_inv hnew
  have hdata : r.data = d := by rw [hr]
  have hmeta : r.metadata = m := by rw [hr]
  have hquals : r.quals = qs := by rw [hr]
  have hrc : r.row_cnt = 0 := by rw [hr]
  have hbrn : r.block_row_num = 0 := by rw [hr]
  have hlim : r.limit = clampLimit none ((m.num_rows : ℕ) : Int) := by rw [hr]
  have hbn0 : r.block_num = nextBlock m qs col0.num_blocks 0 := by rw [hr]
  have hpass : ∀ b j, (∀ q ∈ rawQuals, RawQualHolds d m q b j) →
      allPass r b j = true := by
    intro b j hraw
    exact raw_all_pass r hdata hmeta hquals hc hB hraw
  have hsound : ∀ b j, j < m.num_rows_in_block b →
      allPass r b j = true → skipBlockCore m r.quals b = false := by
    intro b j hj hap
    have := skip_block_sound r (hdata ▸ hmeta ▸ hhonest) (b := b) (j := j)
      (by rw [hmeta]; exact hj) hap
    rw [hmeta] at this
    exact this
  constructor
  · intro b j hj hraw
    exact hsound b j hj (hpass b j hraw)
  · intro b j hb hj hraw
    have hap := hpass b j hraw
    have hskip := hsound b j hj hap
    have hskip' : skipBlockCore r.metadata r.quals b = false := by
      rw [hmeta]; exact hskip
    have hble : r.block_num ≤ b := by
      rw [hbn0]
      refine nextBlock_min' m qs (Nat.zero_le b) (Or.inr ?_)
      rw [← hquals]; rw [hmeta] at *; exact hskip'
    have hmem := mem_matchPositions r b r.block_num b j (by omega) hble hb
      (by rw [hmeta]; exact hj) hap (Or.inr hskip')
    rw [runCursors_spec]
    have hbud : (r.limit.count - r.row_cnt).toNat = m.num_rows := by
      rw [hlim, hrc]
      simp only [clampLimit]
      omega
    have hlen := matchPositions_length_le_num_rows r r.block_num 0
    rw [hmeta] at hlen
    rw [hbrn, List.take_of_length_le (by rw [hbud]; omega)]
    exact hmem

/-- C7 — All-blocks-pruned scan: when the initial block-skip loop finds every
block of the file skippable, `Db721Reader::new` signals the internal
`EmptyScan` outcome (the "filtered out all the rows" `Err(())`, only debug
logged — by construction distinct from the `reportedError` outcomes), so
`begin_scan` stores no reader, and `iter_scan` on a reader-less FDW returns
exhausted immediately: no row is emitted and no row decode is attempted. -/
theorem c7_empty_scan (d : FileData) (m : Metadata) (cols : List String)
    (rawQuals : List Qual) (lim : Option Limit)
    (qs : List (String × ℕ × CustomQual)) (c0 : String) (col0 : Column)
    (rest : List (String × Column))
    (hcols : m.columns = (c0, col0) :: rest)
    (hA : (cols.all fun c => (List.lookup c m.columns).isSome) = true)
    (hB : (rawQuals.all fun q => (List.lookup q.field m.columns).isSome) = true)
    (hc : compileQuals cols rawQuals [] = .ok qs)
    (hskip : ∀ b, b < col0.num_blocks → skipBlockCore m qs b = true) :
    Db721Reader.new (some (d, m)) cols rawQuals lim = .emptyScan
    ∧ (∀ row, Db721Fdw.iter_scan ⟨none⟩ row = none) := by
  constructor
  · have hnb : nextBlock m qs col0.num_blocks 0 = col0.num_blocks := by
      rw [nextBlock]
      exact nextBlock_all_skipped m qs col0.num_blocks _ 0 (by omega)
        (fun b _ h2 => hskip b h2)
    rw [Db721Reader.new, if_neg (not_not_intro hA), if_neg (not_not_intro hB), hc,
      hcols]
    dsimp only
    rw [hnb, if_pos (le_refl _)]
  · intro row
    rfl

/-- C10 — Implicit precondition of the mmap reader: scan initialization looks
up each qual field's position in the projected column list with an unchecked
`unwrap()` (db721_fdw.rs line 184). A scan whose quals otherwise compile but
mention a field absent from the projection panics in `begin_scan` instead of
returning an error; conversely a successful initialization guarantees every
qual field is a projected column. -/
theorem c10_qual_field_projection :
    (∀ (d : FileData) (m : Metadata) (cols : List String) (rawQuals : List Qual)
        (lim : Option Limit) (r : Db721Reader),
        Db721Reader.new (some (d, m)) cols rawQuals lim = .ok r →
        ∀ q ∈ rawQuals, q.field ∈ cols)
    ∧ (∀ (d : FileData) (m : Metadata) (cols : List String) (rawQuals : List Qual)
        (lim : Option Limit),
        (cols.all fun c => (List.lookup c m.columns).isSome) = true →
        (rawQuals.all fun q => (List.lookup q.field m.columns).isSome) = true →
        (∀ q ∈ rawQuals, q.use_or = false ∧ (Op.fromStr q.operator).isSome
          ∧ (polyOfValue q.value).isSome) →
        (∃ q ∈ rawQuals, q.field ∉ cols) →
        Db721Reader.new (some (d, m)) cols rawQuals lim = .panicked) := by
  constructor
  · intro d m cols rawQuals lim r hnew q hq
    obtain ⟨qs, c0, col0, rest, hc, hm, hA, hB, hbn, hr⟩ := new_ok_inv hnew
    obtain ⟨i, hidx⟩ := compileQuals_ok_fields hc q hq
    obtain ⟨x, hx, hpx⟩ := findIdx?_some_exists hidx
    simp only [decide_eq_true_eq] at hpx
    exact hpx ▸ hx
  · intro d m cols rawQuals lim hA hB hall hex
    rw [Db721Reader.new, if_neg (not_not_intro hA), if_neg (not_not_intro hB),
      compileQuals_panics _ hall hex]

/-- C8 — Trailer parsing: a file smaller than 4 bytes fails the initial seek
with an I/O error, and a declared trailer length exceeding the file size minus
4 makes the payload read fail with an I/O error — both are propagated
(`BadTrailer`), reported by the caller and yield a zero-row scan. But when the
payload is read and JSON decoding/shape validation fails, the source calls
`Metadata::from_slice(&buf).unwrap()` (parser.rs line 25): the process panics
instead of reporting an error, contradicting the claimed third `BadTrailer`
case. -/
theorem c8_trailer_parse (dec : List ℕ → Option Metadata) (file : List ℕ) :
    (file.length < 4 → parseFile dec file = .ioError)
    ∧ (4 ≤ file.length → file.length - 4 < trailerLen file →
        parseFile dec file = .ioError)
    ∧ (4 ≤ file.length → trailerLen file ≤ file.length - 4 →
        dec (trailerBuf file) = none →
        parseFile dec file = .panicked) := by
  refine ⟨fun h => by rw [parseFile, if_pos h], ?_, ?_⟩
  · intro h1 h2
    rw [parseFile, if_neg (by omega)]
    dsimp only
    rw [if_pos (by rw [trailerLen] at h2; exact h2)]
  · intro h1 h2 h3
    rw [parseFile, if_neg (by omega)]
    dsimp only
    rw [if_neg (by rw [trailerLen] at h2; omega)]
    rw [trailerBuf, trailerLen] at h3
    rw [h3]

/-- C1 — Predicate soundness fails on the code: the compiled qual map is a
`HashMap` keyed by field name and `insert` replaces the previous entry, so of
the two supplied conjunctive quals `age >= 3 AND age < 5` only the second is
retained. Over a 10-row int column holding 0 in every row (honest statistics
`{num: 10, min: 0, max: 0}`), the first `iterScan` call emits the row `(0, 0)`
whose single cell is `Int 0`: it satisfies the retained `age < 5` but violates
the supplied `age >= 3` (which compiles to `Gte 3` and evaluates to `false` on
`Int 0`) under the row-predicate semantics of §4.3(b). -/
theorem c1_duplicate_qual_dropped :
    Db721Reader.new (some (wData, wMeta)) ["age"] wQualsC1 none = .ok wReaderC1
    ∧ iterScan wReaderC1 [] = some (wReaderC1', [some (Cell.i32 0)])
    ∧ (⟨"age", ">=", .cellI32 3, false⟩ : Qual) ∈ wQualsC1
    ∧ Op.fromStr ">=" = some .gte
    ∧ polyOfValue (.cellI32 3) = some (.int 3)
    ∧ CustomQual.eval ⟨.gte, .int 3⟩ (Cell.i32 0) = false := by
  exact ⟨rfl, rfl, List.mem_cons_self _ _, rfl, rfl, rfl⟩

/-- C4 — Projection law fails in the wrappers variant: its `read_cur_val`
initialises the output cell for a `Stats::Int` column as `Cell::F32(0.0)`
(db721_fdw.rs line 270), so `read_val` decodes the column's 4 bytes as an
`f32` and an int column yields a Float cell; the final mmap reader's
`read_cur_val` yields the claimed Int cell at the same offset. -/
theorem c4_wrappers_int_column_decodes_float (d : FileData) (m : Metadata)
    (b j : ℕ) (bs : BSMap Int) (nb so : ℕ) :
    readCurValWrappers d m b j ⟨Stats.int bs, nb, so⟩
      = Cell.f32 (d.f32At (so + (m.max_vals_per_block * b + j) * 4))
    ∧ readCurValAt d m b j ⟨Stats.int bs, nb, so⟩
      = Cell.i32 (d.i32At (so + (m.max_vals_per_block * b + j) * 4)) :=
  ⟨rfl, rfl⟩

/-! ### Witnesses -/

/-- The statistics of the concrete all-zero file are honest. -/
theorem wHonest : Honest wData wMeta := by
  intro c col hcol
  simp only [wMeta, List.lookup] at hcol
  split at hcol
  · cases hcol
    refine ⟨?_, ?_, ?_⟩
    · intro bs hbs b stats hstats j hj
      have hbs' : bs = [(0, ⟨10, 0, 0, 0, 0⟩)] := by
        simp only [wColAge, Stats.int.injEq] at hbs
        exact hbs.symm
      subst hbs'
      simp only [List.lookup] at hstats
      split at hstats
      · cases hstats
        exact ⟨le_refl _, le_refl _⟩
      · cases hstats
    · intro bs hbs
      simp [wColAge] at hbs
    · intro bs hbs
      simp [wColAge] at hbs
  · cases hcol

/-- Witness for C2 at a concrete scan: `age = 0` over the all-zero file; the
matching row `(0, 5)` appears in the emitted trace. -/
theorem c2_witness : (0, 5) ∈ runCursors wReaderC2 [] 10 := by
  have hraw : ∀ q ∈ wQualsC2, RawQualHolds wData wMeta q 0 5 := by
    intro q hq
    have hq' : q = ⟨"age", "=", .cellI32 0, false⟩ := by
      simpa [wQualsC2] using hq
    subst hq'
    intro cq col hcomp hcol
    obtain ⟨h1, h2⟩ := hcomp
    have hop : cq.op = .eq := by
      rw [show Op.fromStr "=" = some Op.eq from rfl] at h1
      exact (Option.some_inj.mp h1).symm
    have hrhs : cq.rhs = .int 0 := by
      rw [show polyOfValue (Value.cellI32 0) = some (PolyVal.int 0) from rfl] at h2
      exact (Option.some_inj.mp h2).symm
    have hcol' : col = wColAge := by
      simp only [wMeta, List.lookup] at hcol
      simpa using hcol.symm
    subst hcol'
    obtain ⟨op, rhs⟩ := cq
    simp only at hop hrhs
    subst hop
    subst hrhs
    rfl
  exact (c2_predicate_completeness wData wMeta ["age"] wQualsC2 wReaderC2 [] 10
    rfl wHonest (by decide)).2 0 5 (by decide) (by decide) hraw

/-- Witness for C3 at a concrete scan: the no-qual no-LIMIT scan of the 10-row
file emits exactly `num_rows` rows. -/
theorem c3_witness : (runScan wReaderC3 [] 10).length = wMeta.num_rows :=
  (c3_total_count wData wMeta ["age"] wReaderC3 [] 10 rfl (by decide)
    (by decide)).2

/-- Witness for C5 at concrete scans: `LIMIT 7 OFFSET 5` over 10 rows clamps
the stored count to 5, and a reader whose emitted count has reached its LIMIT
count (here `LIMIT 0`) is exhausted immediately and emits nothing. -/
theorem c5_witness :
    wReaderC5.limit
      = (if (5 : Int) + 7 > (wMeta.num_rows : Int)
          then ⟨(wMeta.num_rows : Int) - 5, 5⟩ else ⟨7, 5⟩)
    ∧ iterScan wReaderL0 [] = none
    ∧ runScan wReaderL0 [] 3 = [] :=
  ⟨c5_limit_clamping.1 wData wMeta ["age"] [] 7 5 wReaderC5 rfl,
    c5_limit_clamping.2.2.1 wReaderL0 [] (by decide),
    c5_limit_clamping.2.2.2 wReaderL0 [] 3 (by decide)⟩

/-- Witness for C7 at a concrete scan: `age > 1000` prunes the file's only
block, so `new` signals `EmptyScan` and the reader-less FDW is exhausted. -/
theorem c7_witness :
    Db721Reader.new (some (wData, wMeta)) ["age"]
        [⟨"age", ">", .cellI32 1000, false⟩] none = .emptyScan
    ∧ Db721Fdw.iter_scan ⟨none⟩ [] = none := by
  have h := c7_empty_scan wData wMeta ["age"] [⟨"age", ">", .cellI32 1000, false⟩]
    none [("age", (0, ⟨.gt, .int 1000⟩))] "age" wColAge [] rfl (by decide)
    (by decide) rfl
    (by
      intro b hb
      rw [show wColAge.num_blocks = 1 from rfl] at hb
      have hb0 : b = 0 := by omega
      subst hb0
      decide)
  exact ⟨h.1, h.2 []⟩

/-- Witness for C8 at concrete files: a 2-byte file and a 4-byte file declaring
a 9-byte trailer both fail with a propagated I/O error, while a well-framed
trailer whose JSON decoding fails makes `parse_file` panic. -/
theorem c8_witness :
    parseFile (fun _ => none) [0, 0] = .ioError
    ∧ parseFile (fun _ => none) [9, 0, 0, 0] = .ioError
    ∧ parseFile (fun _ => none) [0, 0, 0, 0] = .panicked :=
  ⟨(c8_trailer_parse (fun _ => none) [0, 0]).1 (by decide),
    (c8_trailer_parse (fun _ => none) [9, 0, 0, 0]).2.1 (by decide) (by decide),
    (c8_trailer_parse (fun _ => none) [0, 0, 0, 0]).2.2 (by decide) (by decide) rfl⟩

/-- Witness for C9 at a concrete scan: `LIMIT 3 OFFSET 2` stores offset 2 yet
the emitted cursors are the first `count` matches of the whole scan. -/
theorem c9_witness :
    wReaderC9.limit.offset = 2
    ∧ runCursors wReaderC9 [] 10
        = (matchPositions wReaderC9 wReaderC9.block_num 0).take
            (min 10 wReaderC9.limit.count.toNat) :=
  c9_offset_not_applied wData wMeta ["age"] [] 3 2 wReaderC9 [] 10 rfl

/-- Witness for C10 at concrete scans: the successfully begun `age = 0` scan
projects the qual field, while the same qual against an empty projection makes
`new` panic. -/
theorem c10_witness :
    ((⟨"age", "=", .cellI32 0, false⟩ : Qual).field ∈ (["age"] : List String))
    ∧ Db721Reader.new (some (wData, wMeta)) [] wQualsC2 none = .panicked := by
  constructor
  · exact c10_qual_field_projection.1 wData wMeta ["age"] wQualsC2 none wReaderC2
      rfl _ (List.mem_cons_self _ _)
  · refine c10_qual_field_projection.2 wData wMeta [] wQualsC2 none (by decide)
      (by decide) ?_ ?_
    · intro q hq
      have hq' : q = ⟨"age", "=", .cellI32 0, false⟩ := by
        simpa [wQualsC2] using hq
      subst hq'
      exact ⟨rfl, rfl, rfl⟩
    · exact ⟨⟨"age", "=", .cellI32 0, false⟩, List.mem_cons_self _ _, by simp⟩

end Db721
